import Mathlib

/-!
# Verification of the indexed max-heap player-statistics tracker

This file gives a shallow embedding of `baseball.py` (classes `Heap`,
`PlayerRecord`, `Problem`) and proves or refutes the specified properties.

Modelling conventions:
* Python 2 integers are `ℤ`; Python floats (only `avg`) are modelled as `ℚ`
  (all concrete values appearing in the claims, such as `0.75`, are exactly
  representable, and the ordering claims are about exact arithmetic).
* Python `dict` objects (`Heap.mapping`, `Problem.player_record_mapping`) are
  association lists with overwrite-on-set semantics (`aset`/`aget`); dict
  iteration order is never used by the source.
* Python object aliasing: a single mutable `PlayerRecord` is referenced by the
  tracker's map and by all four heaps.  We model this by a central store
  (`player_record_mapping`) holding the one record per identity, while heaps
  hold the identity (the reference); every field read in the source
  (`getattr(element, sorting_key)`, `element.player`) goes through the store
  via the key function passed to each heap operation.  Hence heaps can never
  hold divergent copies, exactly as in Python.
* Fallible code returns `Option`: `none` models a raised Python exception
  (`IndexError` from an out-of-range subscript, `TypeError` from
  `heapify_up(None)`, `ZeroDivisionError`).  Loops are embedded as structural
  recursion on an explicit fuel argument; the top-level wrappers supply fuel
  that provably suffices (`heapify_up`: `child + 1` since the child index
  strictly decreases, `heapify_down`: the heap length since the child index
  strictly increases below the length, `validate_heap`: length + 1 since the
  visited index strictly increases).
-/

namespace Baseball

/-- Python dict lookup `d.get(k, None)` on an association list. -/
def aget {β : Type} : List (String × β) → String → Option β
  | [], _ => none
  | (k2, v2) :: t, k => if k2 = k then some v2 else aget t k

/-- Python dict assignment `d[k] = v` on an association list: overwrite the
existing binding if present, otherwise append a new one. -/
def aset {β : Type} : List (String × β) → String → β → List (String × β)
  | [], k, v => [(k, v)]
  | (k2, v2) :: t, k, v => if k2 = k then (k, v) :: t else (k2, v2) :: aset t k v

/-- Python list subscript `l[i]` with negative-index-from-the-end semantics;
`none` models an `IndexError`. -/
def pyGet {α : Type} (l : List α) (i : ℤ) : Option α :=
  if 0 ≤ i then l.get? i.toNat
  else if 0 ≤ i + l.length then l.get? (i + (l.length : ℤ)).toNat
  else none

/-- Statistics record for one player (`class PlayerRecord`, baseball.py:188).
Field order follows `PlayerRecord.__init__`. -/
structure PlayerRecord where
  player : Option String
  ab : ℤ
  hits : ℤ
  avg : ℚ
  rbi : ℤ
deriving DecidableEq

/-- Constructor `PlayerRecord.__init__` (baseball.py:200-218): stores the given
fields and computes `avg = hits/ab`, defined as `0.0` when `ab == 0`.  The
exact rational `Rat.divInt hits ab` equals `(hits : ℚ) / (ab : ℚ)`
(see `mkPlayerRecord_avg`); it is used here because it evaluates inside the
kernel. -/
def mkPlayerRecord (player : Option String) (ab hits rbi : ℤ) : PlayerRecord :=
  ⟨player, ab, hits, if ab = 0 then 0 else Rat.divInt hits ab, rbi⟩

/-- State of `class Heap` (baseball.py:5-16): the array `self.heap` and the
identity-to-index dict `self.mapping`.  The element type is generic (the
source stores `PlayerRecord` references; the tracker instantiates `α` with
the identity, see the aliasing note in the file docstring).  The
`sorting_key` attribute is modelled as the key function passed to each
operation, and `element.player` as the `pid` function. -/
structure HeapG (α : Type) where
  heap : List α
  mapping : List (String × Nat)
deriving DecidableEq

/-- Key of the array element at index `i` (`getattr(self.heap[i], self.sorting_key)`);
all uses are guarded so the `default` branch is never taken in-range. -/
def keyAt {α : Type} [Inhabited α] (key : α → ℚ) (l : List α) (i : Nat) : ℚ :=
  key (l.getD i default)

/-- The swap performed inside both heapify loops (baseball.py:45-54 and 85-94):
first both mapping entries are written, then the two array slots are swapped. -/
def heapSwap {α : Type} [Inhabited α] (pid : α → String) (h : HeapG α)
    (parent child : Nat) : HeapG α :=
  let pv := h.heap.getD parent default
  let cv := h.heap.getD child default
  { heap := (h.heap.set parent cv).set child pv,
    mapping := aset (aset h.mapping (pid pv) child) (pid cv) parent }

/-- Child selection of `heapify_down` (baseball.py:69-78 and 98-107): `none`
when the left child is out of range (return/break), otherwise the larger
in-range child (ties go right). -/
def childSel {α : Type} [Inhabited α] (key : α → ℚ) (l : List α) (parent : Nat) :
    Option Nat :=
  let left := parent * 2 + 1
  let right := parent * 2 + 2
  if l.length ≤ left then none
  else if l.length ≤ right then some left
  else if keyAt key l left > keyAt key l right then some left
  else some right

/-- Loop of `Heap.heapify_down` (baseball.py:79-107), fuel-indexed.  The inner
`if (child >= len(self.heap)): return` is the source's (dead) guard. -/
def downGo {α : Type} [Inhabited α] (key : α → ℚ) (pid : α → String) :
    Nat → HeapG α → Nat → Nat → HeapG α
  | 0, h, _, _ => h
  | fuel + 1, h, parent, child =>
    if keyAt key h.heap parent < keyAt key h.heap child then
      if h.heap.length ≤ child then h
      else
        let h2 := heapSwap pid h parent child
        match childSel key h2.heap child with
        | none => h2
        | some c2 => downGo key pid fuel h2 child c2
    else h

/-- `Heap.heapify_down` (baseball.py:60-107). -/
def heapify_down {α : Type} [Inhabited α] (key : α → ℚ) (pid : α → String)
    (h : HeapG α) (parent : Nat) : HeapG α :=
  match childSel key h.heap parent with
  | none => h
  | some child => downGo key pid h.heap.length h parent child

/-- Loop of `Heap.heapify_up` (baseball.py:34-58), fuel-indexed.  The parent
index is computed with Python 2 floor division `(child - 1) / 2`, so for
`child = 0` it is `-1` and the loop guard reads `self.heap[-1]`, the last
element, before the explicit `parent == -1` early return. -/
def upGo {α : Type} [Inhabited α] (key : α → ℚ) (pid : α → String) :
    Nat → HeapG α → Nat → Option (HeapG α)
  | 0, _, _ => none
  | fuel + 1, h, child =>
    let parent : ℤ := ((child : ℤ) - 1).fdiv 2
    match pyGet h.heap parent, pyGet h.heap child with
    | some pv, some cv =>
      if key pv < key cv then
        if parent = -1 then some h
        else upGo key pid fuel (heapSwap pid h parent.toNat child) parent.toNat
      else some h
    | _, _ => none

/-- `Heap.heapify_up` (baseball.py:22-58). -/
def heapify_up {α : Type} [Inhabited α] (key : α → ℚ) (pid : α → String)
    (h : HeapG α) (child : Nat) : Option (HeapG α) :=
  upGo key pid (child + 1) h child

/-- `Heap.extract_max` (baseball.py:110-127): swap index 0 with the last index,
pop the last slot (returning the original root), then `heapify_down(0)`.
Note the source never touches `self.mapping` here. -/
def extract_max {α : Type} [Inhabited α] (key : α → ℚ) (pid : α → String)
    (h : HeapG α) : Option α × HeapG α :=
  if h.heap.length < 1 then (none, h)
  else
    let temp := h.heap.getD 0 default
    let lastv := h.heap.getD (h.heap.length - 1) default
    let l1 := (h.heap.set 0 lastv).set (h.heap.length - 1) temp
    let h2 : HeapG α := ⟨l1.dropLast, h.mapping⟩
    (some temp, heapify_down key pid h2 0)

/-- `Heap.insert` (baseball.py:129-147): append, record the index in the
mapping, then sift up from the last index. -/
def insert {α : Type} [Inhabited α] (key : α → ℚ) (pid : α → String)
    (h : HeapG α) (element : α) : Option (HeapG α) :=
  let heap2 := h.heap ++ [element]
  let child := heap2.length - 1
  heapify_up key pid ⟨heap2, aset h.mapping (pid element) child⟩ child

/-- `Heap.get_index` (baseball.py:149-159): `self.mapping.get(element.player, None)`. -/
def get_index {α : Type} (h : HeapG α) (player : String) : Option Nat :=
  aget h.mapping player

/-- Worklist of `Heap.validate_heap` (baseball.py:170-183), embedded as the
equivalent recursive descent (the source's explicit stack visits the same
parent/child pairs and computes the same conjunction of comparisons),
fuel-indexed by visited index. -/
def validateGo (keys : List ℚ) : Nat → Nat → Bool
  | 0, _ => true
  | fuel + 1, parent =>
    let n := keys.length
    let child1 := 2 * parent + 1
    let child2 := 2 * parent + 2
    if child1 < n then
      if keys.getD parent 0 < keys.getD child1 0 then false
      else if child2 < n then
        if keys.getD parent 0 < keys.getD child2 0 then false
        else validateGo keys fuel child1 && validateGo keys fuel child2
      else validateGo keys fuel child1
    else true

/-- `Heap.validate_heap` (baseball.py:161-184): first projects the key of every
element (`heap = [getattr(ele, self.sorting_key) for ele in self.heap]`),
then checks the max-heap property at every node reachable from index 0. -/
def validate_heap {α : Type} [Inhabited α] (key : α → ℚ) (h : HeapG α) : Bool :=
  validateGo (h.heap.map key) (h.heap.length + 1) 0

/-- The `for i in range(size): output.append(theHeap.extract_max())` loop of
`Problem.current_best` (baseball.py:331-332).  The `none` branch (extracting
from an empty heap) is unreachable because `size = min(k, len(heap))`. -/
def extractK {α : Type} [Inhabited α] (key : α → ℚ) (pid : α → String)
    (h : HeapG α) : Nat → List α × HeapG α
  | 0 => ([], h)
  | n + 1 =>
    match extract_max key pid h with
    | (some x, h2) =>
      let r := extractK key pid h2 n
      (x :: r.1, r.2)
    | (none, h2) => ([], h2)

/-- The `for i in output: theHeap.insert(i)` loop of `Problem.current_best`
(baseball.py:334-335). -/
def insertAll {α : Type} [Inhabited α] (key : α → ℚ) (pid : α → String)
    (h : HeapG α) : List α → Option (HeapG α)
  | [] => some h
  | x :: xs =>
    match insert key pid h x with
    | some h2 => insertAll key pid h2 xs
    | none => none

/-- State of `class Problem` (baseball.py:225-240): the identity-to-record map
and one heap per tracked attribute. -/
structure Problem where
  player_record_mapping : List (String × PlayerRecord)
  abHeap : HeapG String
  hitsHeap : HeapG String
  rbiHeap : HeapG String
  avgHeap : HeapG String
deriving DecidableEq

/-- `Problem.__init__` (baseball.py:235-240). -/
def Problem.start : Problem := ⟨[], ⟨[], []⟩, ⟨[], []⟩, ⟨[], []⟩, ⟨[], []⟩⟩

/-- `getattr(record, stat)` as a numeric value (the four tracked attributes). -/
def getattrQ (r : PlayerRecord) (stat : String) : ℚ :=
  if stat = "ab" then (r.ab : ℚ)
  else if stat = "hits" then (r.hits : ℚ)
  else if stat = "rbi" then (r.rbi : ℚ)
  else if stat = "avg" then r.avg
  else 0

/-- Key function of the heap sorted on `stat`: dereference the identity through
the tracker's store (Python reads the field of the shared record object; a
missing identity would be a dangling reference, impossible in Python since
the store keeps every record alive). -/
def keyOf (store : List (String × PlayerRecord)) (stat : String)
    (idStr : String) : ℚ :=
  match aget store idStr with
  | some r => getattrQ r stat
  | none => 0

/-- `heap.heapify_up(heap.get_index(record))` as called by `Problem.new_at_bat`
(baseball.py:268-274); `get_index` returning `None` makes Python raise a
`TypeError` inside `heapify_up`, modelled by `none`. -/
def idx_up (key : String → ℚ) (h : HeapG String) (player : String) :
    Option (HeapG String) :=
  match get_index h player with
  | none => none
  | some i => heapify_up key (fun s => s) h i

/-- `heap.heapify_down(heap.get_index(record))` as called by `Problem.new_at_bat`. -/
def idx_down (key : String → ℚ) (h : HeapG String) (player : String) :
    Option (HeapG String) :=
  match get_index h player with
  | none => none
  | some i => some (heapify_down key (fun s => s) h i)

/-- `Problem.new_at_bat` (baseball.py:246-282).  Seen player: mutate the shared
record in place (`ab += 1`, `hits += hits`, `rbi += rbi`,
`avg = float(hits)/float(ab)`, which raises `ZeroDivisionError` if `ab`
became 0), then sift `ab`, `hits`, `rbi` up and sift `avg` down when the
hits delta is 0, up otherwise.  Unseen player: build
`PlayerRecord(player, 1, hits, rbi)` and insert it into all four heaps.  The
store is written before the heap repairs/inserts; in Python the shared
object is mutated first and the map assignment is a no-op by aliasing, and
no operation below reads the map entry of `player`, so the order is
observably identical. -/
def new_at_bat (p : Problem) (player : String) (hits rbi : ℤ) : Option Problem :=
  match aget p.player_record_mapping player with
  | some r =>
    if r.ab + 1 = 0 then none
    else
      let r2 : PlayerRecord :=
        ⟨r.player, r.ab + 1, r.hits + hits,
          Rat.divInt (r.hits + hits) (r.ab + 1), r.rbi + rbi⟩
      let store2 := aset p.player_record_mapping player r2
      match idx_up (keyOf store2 "ab") p.abHeap player with
      | none => none
      | some abH =>
        match idx_up (keyOf store2 "hits") p.hitsHeap player with
        | none => none
        | some hitsH =>
          match idx_up (keyOf store2 "rbi") p.rbiHeap player with
          | none => none
          | some rbiH =>
            match (if hits = 0 then idx_down (keyOf store2 "avg") p.avgHeap player
                   else idx_up (keyOf store2 "avg") p.avgHeap player) with
            | none => none
            | some avgH => some ⟨store2, abH, hitsH, rbiH, avgH⟩
  | none =>
    let r2 := mkPlayerRecord (some player) 1 hits rbi
    let store2 := aset p.player_record_mapping player r2
    match insert (keyOf store2 "ab") (fun s => s) p.abHeap player with
    | none => none
    | some abH =>
      match insert (keyOf store2 "hits") (fun s => s) p.hitsHeap player with
      | none => none
      | some hitsH =>
        match insert (keyOf store2 "rbi") (fun s => s) p.rbiHeap player with
        | none => none
        | some rbiH =>
          match insert (keyOf store2 "avg") (fun s => s) p.avgHeap player with
          | none => none
          | some avgH => some ⟨store2, abH, hitsH, rbiH, avgH⟩

/-- `Problem.current_stats` (baseball.py:285-300): the stored record for a seen
player, the documented sentinel `PlayerRecord(None, 1, 0, 0)` otherwise. -/
def current_stats (p : Problem) (player : String) : PlayerRecord :=
  match aget p.player_record_mapping player with
  | some r => r
  | none => mkPlayerRecord none 1 0 0

/-- The heap selected by the `if/elif` chain of `Problem.current_best`
(baseball.py:316-324); only applied to the four valid names. -/
def heapOf (p : Problem) (stat : String) : HeapG String :=
  if stat = "ab" then p.abHeap
  else if stat = "hits" then p.hitsHeap
  else if stat = "rbi" then p.rbiHeap
  else p.avgHeap

/-- Writing the selected heap back (Python mutates it through the `theHeap`
reference). -/
def withHeap (p : Problem) (stat : String) (h : HeapG String) : Problem :=
  if stat = "ab" then { p with abHeap := h }
  else if stat = "hits" then { p with hitsHeap := h }
  else if stat = "rbi" then { p with rbiHeap := h }
  else { p with avgHeap := h }

/-- `Problem.current_best` (baseball.py:302-336).  Unknown attribute: the
source prints `'not valid'` and falls off with a bare `return`, i.e. it
returns Python's default `None` — modelled by the `(none, p)` result (state
untouched).  Valid attribute: extract `min(k, len(heap))` times (Python
`range` of a negative size is empty, hence `Int.toNat`), then reinsert every
extracted record.  The outer `Option` is the exception channel, provably
never `none`. -/
def current_best (p : Problem) (stat : String) (k : ℤ) :
    Option (Option (List String) × Problem) :=
  if stat = "ab" ∨ stat = "hits" ∨ stat = "rbi" ∨ stat = "avg" then
    let theHeap := heapOf p stat
    let size : ℤ := min k (theHeap.heap.length : ℤ)
    let ex := extractK (keyOf p.player_record_mapping stat) (fun s => s)
      theHeap size.toNat
    match insertAll (keyOf p.player_record_mapping stat) (fun s => s) ex.2 ex.1 with
    | none => none
    | some h2 => some (some ex.1, withHeap p stat h2)
  else some (none, p)

/-- Tracker states reachable by the public operations from a fresh `Problem`
(`current_stats` does not change the state and needs no constructor).  A step
exists only when the operation returns normally (no exception). -/
inductive Reachable : Problem → Prop
  | start : Reachable Problem.start
  | newAtBat {p p2 : Problem} {pl : String} {h r : ℤ} :
      Reachable p → new_at_bat p pl h r = some p2 → Reachable p2
  | currentBest {p p2 : Problem} {stat : String} {k : ℤ}
      {res : Option (List String)} :
      Reachable p → current_best p stat k = some (res, p2) → Reachable p2

/-- Parent index `(i - 1) / 2` for non-root `i` (Nat division; all actual uses
have `i ≥ 1`). -/
def parentIdx (i : Nat) : Nat := (i - 1) / 2

/-- The max-heap property of the array: every non-root element's key is at most
its parent's key (spec §3). -/
def heapInvP {α : Type} [Inhabited α] (key : α → ℚ) (l : List α) : Prop :=
  ∀ i, 1 ≤ i → i < l.length → keyAt key l i ≤ keyAt key l (parentIdx i)

/-- The max-heap property everywhere except possibly on the two edges from
node `p` to its children. -/
def brokenAt {α : Type} [Inhabited α] (key : α → ℚ) (l : List α) (p : Nat) : Prop :=
  ∀ i, 1 ≤ i → i < l.length → parentIdx i ≠ p →
    keyAt key l i ≤ keyAt key l (parentIdx i)

/-- When `p` is not the root, `p`'s parent still dominates `p`'s children
(the standard auxiliary invariant of sift-down). -/
def auxDom {α : Type} [Inhabited α] (key : α → ℚ) (l : List α) (p : Nat) : Prop :=
  1 ≤ p → ∀ i, i < l.length → parentIdx i = p →
    keyAt key l i ≤ keyAt key l (parentIdx p)

/-- Subtree relation on array indices: `Desc i j` holds when `j` lies in the
binary subtree rooted at `i` (children of `n` are `2n+1` and `2n+2`). -/
inductive Desc : Nat → Nat → Prop
  | refl (i : Nat) : Desc i i
  | left {i k : Nat} : Desc (2 * i + 1) k → Desc i k
  | right {i k : Nat} : Desc (2 * i + 2) k → Desc i k

/-! ### Concrete states used by the counterexamples and witnesses -/

/-- A two-element max-heap of players `A` (key 5) and `B` (key 3) with a
consistent mapping, as produced by `insert A; insert B`. -/
def hAB : HeapG String := ⟨["A", "B"], [("A", 0), ("B", 1)]⟩

/-- Key function giving player `A` key 5 and everyone else key 3. -/
def keyAB : String → ℚ := fun s => if s = "A" then 5 else 3

/-- The driver input `n A 5 0; n B 2 0; n A 1 0; n A 1 0; n A 1 0; n A 1 0`:
player `A` bats in 5 hits on the first at-bat (`avg = 5.0`), `B` bats in 2
(`avg = 2.0`), then `A` has four more one-hit at-bats, ending with
`avg = 9/5 = 1.8 < 2.0` while still at the root of the average heap. -/
def exSeq : Option Problem :=
  (new_at_bat Problem.start "A" 5 0).bind fun q1 =>
  (new_at_bat q1 "B" 2 0).bind fun q2 =>
  (new_at_bat q2 "A" 1 0).bind fun q3 =>
  (new_at_bat q3 "A" 1 0).bind fun q4 =>
  (new_at_bat q4 "A" 1 0).bind fun q5 =>
  new_at_bat q5 "A" 1 0

/-- The tracker state reached by `exSeq` (every step returns normally). -/
def pEx : Problem := exSeq.getD Problem.start

/-- Tracker with the single player `A` after one hitless at-bat. -/
def pOne : Problem := (new_at_bat Problem.start "A" 0 0).getD Problem.start

/-- Tracker state after three at-bats of `A`, each with one hit and one rbi. -/
def pThree : Problem :=
  ((new_at_bat Problem.start "A" 1 1).bind fun q1 =>
    (new_at_bat q1 "A" 1 1).bind fun q2 =>
    new_at_bat q2 "A" 1 1).getD Problem.start

/-- Tracker state after `pThree` and one more hitless, rbi-less at-bat of `A`:
the update-correctness example of the spec (`ab=4, hits=3, rbi=3, avg=0.75`). -/
def pFour : Problem := (new_at_bat pThree "A" 0 0).getD Problem.start

/-- Tracker with players `A` (1 hit) and `B` (0 hits), for the truncation
witness. -/
def pTwo : Problem :=
  ((new_at_bat Problem.start "A" 1 0).bind fun q1 =>
    new_at_bat q1 "B" 0 0).getD Problem.start

/-- A three-element valid max-heap (keys 3, 2, 1) for the extraction witness. -/
def hCBA : HeapG String := ⟨["C", "B", "A"], [("C", 0), ("B", 1), ("A", 2)]⟩

/-- Key function for `hCBA`: `C` has key 3, `B` key 2, everyone else key 1. -/
def keyCBA : String → ℚ := fun s => if s = "C" then 3 else if s = "B" then 2 else 1

/-- The `(ab, hits, rbi)` totals the tracker currently has for an identity
(zero for an unseen identity); used to state the update-correctness claim. -/
def prevStats (p : Problem) (pl : String) : ℤ × ℤ × ℤ :=
  match aget p.player_record_mapping pl with
  | some r => (r.ab, r.hits, r.rbi)
  | none => (0, 0, 0)

/-! ### Association list and list-access lemmas -/

theorem aget_aset_self {β : Type} :
    ∀ (m : List (String × β)) (k : String) (v : β), aget (aset m k v) k = some v
  | [], k, v => by simp [aget, aset]
  | (k2, v2) :: t, k, v => by
    by_cases hk : k2 = k
    · simp [aget, aset, hk]
    · simp [aget, aset, hk, aget_aset_self t k v]

theorem aget_aset_ne {β : Type} :
    ∀ (m : List (String × β)) (k : String) (v : β) (k2 : String), k ≠ k2 →
      aget (aset m k v) k2 = aget m k2
  | [], k, v, k2, hne => by simp [aget, aset, hne]
  | (k3, v3) :: t, k, v, k2, hne => by
    by_cases hk : k3 = k
    · subst hk
      simp [aget, aset, hne]
    · simp only [aset, if_neg hk, aget]
      by_cases hk2 : k3 = k2
      · simp [hk2]
      · simp [hk2, aget_aset_ne t k v k2 hne]

theorem getD_set_self {α : Type} (l : List α) {i : Nat} (x d : α)
    (h : i < l.length) : (l.set i x).getD i d = x := by
  rw [List.getD_eq_getElem?_getD, List.getElem?_set_eq_of_lt x h]
  rfl

theorem getD_set_ne {α : Type} (l : List α) {i j : Nat} (x d : α)
    (h : i ≠ j) : (l.set i x).getD j d = l.getD j d := by
  simp [List.getD_eq_getElem?_getD, List.getElem?_set_ne h]

theorem getD_dropLast {α : Type} (l : List α) {i : Nat} (d : α)
    (h : i < l.length - 1) : l.dropLast.getD i d = l.getD i d := by
  rw [List.dropLast_eq_take]
  simp [List.getD_eq_getElem?_getD, List.getElem?_take_of_lt h]

theorem pyGet_ofNat {α : Type} (l : List α) (n : Nat) :
    pyGet l (n : ℤ) = l.get? n := by
  simp [pyGet]

theorem pyGet_neg_one {α : Type} (l : List α) (h : l ≠ []) :
    pyGet l (-1) = l.get? (l.length - 1) := by
  have hp : 0 < l.length := List.length_pos.2 h
  have h1 : ¬ ((0 : ℤ) ≤ -1) := by decide
  have h2 : (0 : ℤ) ≤ -1 + l.length := by omega
  have h3 : ((-1 : ℤ) + l.length).toNat = l.length - 1 := by omega
  simp only [pyGet, if_neg h1, if_pos h2, h3]

/-- One swapped-in head: `t[m] :: t.set m a` is a permutation of `a :: t`. -/
theorem cons_set_perm {α : Type} [Inhabited α] :
    ∀ (t : List α) (m : Nat) (a : α), m < t.length →
      List.Perm (t.getD m default :: t.set m a) (a :: t)
  | [], m, a, hm => absurd hm (by simp)
  | b :: s, 0, a, _ => by
    simpa using List.Perm.swap a b s
  | b :: s, m + 1, a, hm => by
    have hms : m < s.length := by simpa using hm
    have h1 : List.Perm (s.getD m default :: b :: s.set m a)
        (b :: (s.getD m default :: s.set m a)) :=
      List.Perm.swap b (s.getD m default) (s.set m a)
    have h2 : List.Perm (b :: (s.getD m default :: s.set m a)) (b :: (a :: s)) :=
      List.Perm.cons b (cons_set_perm s m a hms)
    have h3 : List.Perm (b :: a :: s) (a :: b :: s) := List.Perm.swap a b s
    simpa using (h1.trans h2).trans h3

/-- Swapping two in-range entries of a list is a permutation. -/
theorem set_set_swap_perm {α : Type} [Inhabited α] :
    ∀ (l : List α) (i j : Nat), i < l.length → j < l.length →
      List.Perm ((l.set i (l.getD j default)).set j (l.getD i default)) l
  | [], i, _, hi, _ => absurd hi (by simp)
  | a :: t, 0, 0, _, _ => by simp
  | a :: t, 0, m + 1, _, hj => by
    have hms : m < t.length := by simpa using hj
    simpa using cons_set_perm t m a hms
  | a :: t, n + 1, 0, hi, _ => by
    have hns : n < t.length := by simpa using hi
    simpa using cons_set_perm t n a hns
  | a :: t, n + 1, m + 1, hi, hj => by
    have hns : n < t.length := by simpa using hi
    have hms : m < t.length := by simpa using hj
    simpa using List.Perm.cons a (set_set_swap_perm t n m hns hms)

theorem heapSwap_length {α : Type} [Inhabited α] (pid : α → String)
    (h : HeapG α) (i j : Nat) :
    (heapSwap pid h i j).heap.length = h.heap.length := by
  simp [heapSwap]

theorem heapSwap_perm {α : Type} [Inhabited α] (pid : α → String)
    (h : HeapG α) {i j : Nat} (hi : i < h.heap.length) (hj : j < h.heap.length) :
    List.Perm (heapSwap pid h i j).heap h.heap :=
  set_set_swap_perm h.heap i j hi hj

/-- Keys after a swap: position `j` holds the old key of `i`, position `i` the
old key of `j`, everything else is unchanged. -/
theorem keyAt_heapSwap {α : Type} [Inhabited α] (key : α → ℚ) (pid : α → String)
    (h : HeapG α) {i j : Nat} (t : Nat) (hi : i < h.heap.length)
    (hj : j < h.heap.length) :
    keyAt key (heapSwap pid h i j).heap t =
      if t = j then keyAt key h.heap i
      else if t = i then keyAt key h.heap j
      else keyAt key h.heap t := by
  have hswap : (heapSwap pid h i j).heap =
      (h.heap.set i (h.heap.getD j default)).set j (h.heap.getD i default) := rfl
  by_cases htj : t = j
  · subst htj
    have hlen : t < (h.heap.set i (h.heap.getD t default)).length := by
      simpa using hj
    rw [if_pos rfl, keyAt, hswap, getD_set_self _ _ _ hlen]
    rfl
  · by_cases hti : t = i
    · subst hti
      rw [if_neg htj, if_pos rfl, keyAt, hswap,
        getD_set_ne _ _ _ (fun hx => htj hx.symm), getD_set_self _ _ _ hi]
      rfl
    · rw [if_neg htj, if_neg hti, keyAt, hswap,
        getD_set_ne _ _ _ (fun hx => htj hx.symm),
        getD_set_ne _ _ _ (fun hx => hti hx.symm)]
      rfl

/-! ### Child selection -/

theorem childSel_some {α : Type} [Inhabited α] (key : α → ℚ) {l : List α}
    {p c : Nat} (h : childSel key l p = some c) :
    p < c ∧ c < l.length ∧ (c = p * 2 + 1 ∨ c = p * 2 + 2) := by
  simp only [childSel] at h
  split_ifs at h with h1 h2 h3 <;>
    simp only [Option.some.injEq] at h <;> omega

theorem childSel_max {α : Type} [Inhabited α] (key : α → ℚ) {l : List α}
    {p c : Nat} (hsel : childSel key l p = some c) :
    ∀ j, (j = p * 2 + 1 ∨ j = p * 2 + 2) → j < l.length →
      keyAt key l j ≤ keyAt key l c := by
  intro j hj hjl
  simp only [childSel] at hsel
  split_ifs at hsel with h1 h2 h3 <;> simp only [Option.some.injEq] at hsel <;>
    subst hsel
  · rcases hj with hj | hj
    · exact hj ▸ le_refl _
    · omega
  · rcases hj with hj | hj
    · exact hj ▸ le_refl _
    · exact hj ▸ le_of_lt h3
  · rcases hj with hj | hj
    · exact hj ▸ le_of_not_lt h3
    · exact hj ▸ le_refl _

theorem childSel_none {α : Type} [Inhabited α] (key : α → ℚ) {l : List α}
    {p : Nat} (h : childSel key l p = none) : l.length ≤ p * 2 + 1 := by
  simp only [childSel] at h
  split_ifs at h with h1 h2 h3 <;> first | exact h1 | exact absurd h (by simp)

/-! ### Permutation facts for the sift loops -/

theorem downGo_perm {α : Type} [Inhabited α] (key : α → ℚ) (pid : α → String) :
    ∀ (fuel : Nat) (h : HeapG α) (p c : Nat), p < h.heap.length →
      List.Perm (downGo key pid fuel h p c).heap h.heap
  | 0, h, p, c, _ => List.Perm.refl _
  | fuel + 1, h, p, c, hp => by
    simp only [downGo]
    by_cases hg : keyAt key h.heap p < keyAt key h.heap c
    · rw [if_pos hg]
      by_cases hlen : h.heap.length ≤ c
      · rw [if_pos hlen]
      · rw [if_neg hlen]
        have hc : c < h.heap.length := Nat.lt_of_not_le hlen
        have hperm : List.Perm (heapSwap pid h p c).heap h.heap :=
          heapSwap_perm pid h hp hc
        cases hsel : childSel key (heapSwap pid h p c).heap c with
        | none => exact hperm
        | some c2 =>
          have hc2 : c < (heapSwap pid h p c).heap.length := by
            rw [heapSwap_length]; exact hc
          exact (downGo_perm key pid fuel (heapSwap pid h p c) c c2 hc2).trans hperm
    · rw [if_neg hg]

theorem heapify_down_perm {α : Type} [Inhabited α] (key : α → ℚ)
    (pid : α → String) (h : HeapG α) (parent : Nat) :
    List.Perm (heapify_down key pid h parent).heap h.heap := by
  unfold heapify_down
  cases hsel : childSel key h.heap parent with
  | none => exact List.Perm.refl _
  | some c =>
    obtain ⟨hpc, hcl, _⟩ := childSel_some key hsel
    exact downGo_perm key pid h.heap.length h parent c (lt_trans hpc hcl)

theorem upGo_perm {α : Type} [Inhabited α] (key : α → ℚ) (pid : α → String) :
    ∀ (fuel : Nat) (h : HeapG α) (c : Nat) (h2 : HeapG α),
      upGo key pid fuel h c = some h2 → List.Perm h2.heap h.heap
  | 0, h, c, h2, hup => by simp [upGo] at hup
  | fuel + 1, h, c, h2, hup => by
    simp only [upGo] at hup
    cases hpar : pyGet h.heap (((c : ℤ) - 1).fdiv 2) with
    | none => simp [hpar] at hup
    | some pv =>
      cases hch : pyGet h.heap (c : ℤ) with
      | none => simp [hpar, hch] at hup
      | some cv =>
        simp only [hpar, hch] at hup
        by_cases hk : key pv < key cv
        · rw [if_pos hk] at hup
          by_cases hroot : ((c : ℤ) - 1).fdiv 2 = -1
          · rw [if_pos hroot] at hup
            cases hup
            exact List.Perm.refl _
          · rw [if_neg hroot] at hup
            have hcpos : 1 ≤ c := by
              by_contra hc0
              have : c = 0 := by omega
              subst this
              exact hroot (by decide)
            have hpeq : ((c : ℤ) - 1).fdiv 2 = (((c - 1) / 2 : Nat) : ℤ) := by
              have h1 : ((c : ℤ) - 1) = ((c - 1 : Nat) : ℤ) := by omega
              rw [h1]
              exact_mod_cast (Int.ofNat_fdiv (c - 1) 2).symm
            have hcl : c < h.heap.length := by
              have := hch
              rw [pyGet_ofNat] at this
              exact List.get?_eq_some.1 this |>.1
            have hpl : (((c : ℤ) - 1).fdiv 2).toNat < h.heap.length := by
              have h2 : (c - 1) / 2 ≤ c - 1 := Nat.div_le_self _ _
              omega
            have hperm := upGo_perm key pid fuel
              (heapSwap pid h (((c : ℤ) - 1).fdiv 2).toNat c)
              (((c : ℤ) - 1).fdiv 2).toNat h2 hup
            exact hperm.trans (heapSwap_perm pid h hpl hcl)
        · rw [if_neg hk] at hup
          cases hup
          exact List.Perm.refl _

theorem get?_eq_getD {α : Type} [Inhabited α] {l : List α} {n : Nat}
    (h : n < l.length) : l.get? n = some (l.getD n default) := by
  rw [List.getD_eq_getElem?_getD, List.get?_eq_getElem?, List.getElem?_eq_getElem h]
  rfl

theorem fdiv_parent_cast (c : Nat) (hc : 1 ≤ c) :
    ((c : ℤ) - 1).fdiv 2 = (((c - 1) / 2 : Nat) : ℤ) := by
  have h1 : ((c : ℤ) - 1) = ((c - 1 : Nat) : ℤ) := by omega
  rw [h1]
  exact_mod_cast (Int.ofNat_fdiv (c - 1) 2).symm

/-- The sift-up loop always returns normally when started at an in-range index
of a non-empty heap, given fuel `child + 1` (the index strictly decreases). -/
theorem upGo_total {α : Type} [Inhabited α] (key : α → ℚ) (pid : α → String) :
    ∀ (fuel : Nat) (h : HeapG α) (c : Nat), 0 < h.heap.length →
      c < h.heap.length → c + 1 ≤ fuel →
      ∃ h2, upGo key pid fuel h c = some h2
  | 0, _, c, _, _, hf => absurd hf (by omega)
  | fuel + 1, h, c, hpos, hcl, hf => by
    simp only [upGo]
    by_cases hc0 : c = 0
    · subst hc0
      have hne : h.heap ≠ [] := List.length_pos.1 hpos
      have hfd : (((0 : Nat) : ℤ) - 1).fdiv 2 = -1 := by decide
      have hp : pyGet h.heap ((((0 : Nat) : ℤ) - 1).fdiv 2) =
          some (h.heap.getD (h.heap.length - 1) default) := by
        rw [hfd, pyGet_neg_one _ hne]
        exact get?_eq_getD (by omega)
      have hc2 : pyGet h.heap ((0 : Nat) : ℤ) = some (h.heap.getD 0 default) := by
        rw [pyGet_ofNat]
        exact get?_eq_getD hpos
      simp only [hp, hc2]
      by_cases hk : key (h.heap.getD (h.heap.length - 1) default) <
          key (h.heap.getD 0 default)
      · rw [if_pos hk, if_pos hfd]
        exact ⟨h, rfl⟩
      · rw [if_neg hk]
        exact ⟨h, rfl⟩
    · have hc1 : 1 ≤ c := by omega
      have hpeq := fdiv_parent_cast c hc1
      have hpl2 : (c - 1) / 2 < h.heap.length := by
        have : (c - 1) / 2 ≤ c - 1 := Nat.div_le_self _ _
        omega
      have hp : pyGet h.heap (((c : ℤ) - 1).fdiv 2) =
          some (h.heap.getD ((c - 1) / 2) default) := by
        rw [hpeq, pyGet_ofNat]
        exact get?_eq_getD hpl2
      have hc2 : pyGet h.heap ((c : Nat) : ℤ) = some (h.heap.getD c default) := by
        rw [pyGet_ofNat]
        exact get?_eq_getD hcl
      simp only [hp, hc2]
      by_cases hk : key (h.heap.getD ((c - 1) / 2) default) <
          key (h.heap.getD c default)
      · rw [if_pos hk, if_neg (by rw [hpeq]; omega)]
        have htn : ((((c : ℤ) - 1).fdiv 2)).toNat = (c - 1) / 2 := by
          rw [hpeq]; omega
        rw [htn]
        have hlen2 : (heapSwap pid h ((c - 1) / 2) c).heap.length = h.heap.length :=
          heapSwap_length pid h _ _
        exact upGo_total key pid fuel (heapSwap pid h ((c - 1) / 2) c) ((c - 1) / 2)
          (by omega) (by omega) (by omega)
      · rw [if_neg hk]
        exact ⟨h, rfl⟩

/-- `heapify_up(0)` returns the heap unchanged: the guard reads `heap[-1]`
(the last element) and either fails or runs into the `parent == -1` early
return, in both cases without modifying anything. -/
theorem heapify_up_zero {α : Type} [Inhabited α] (key : α → ℚ) (pid : α → String)
    (h : HeapG α) (hpos : 0 < h.heap.length) : heapify_up key pid h 0 = some h := by
  unfold heapify_up
  simp only [upGo]
  have hne : h.heap ≠ [] := List.length_pos.1 hpos
  have hfd : (((0 : Nat) : ℤ) - 1).fdiv 2 = -1 := by decide
  have hp : pyGet h.heap ((((0 : Nat) : ℤ) - 1).fdiv 2) =
      some (h.heap.getD (h.heap.length - 1) default) := by
    rw [hfd, pyGet_neg_one _ hne]
    exact get?_eq_getD (by omega)
  have hc2 : pyGet h.heap ((0 : Nat) : ℤ) = some (h.heap.getD 0 default) := by
    rw [pyGet_ofNat]
    exact get?_eq_getD hpos
  simp only [hp, hc2]
  by_cases hk : key (h.heap.getD (h.heap.length - 1) default) <
      key (h.heap.getD 0 default)
  · rw [if_pos hk, if_pos hfd]
  · rw [if_neg hk]

/-! ### `extract_max`, `insert` and the query loops: permutation facts -/

theorem extract_max_empty {α : Type} [Inhabited α] (key : α → ℚ)
    (pid : α → String) (h : HeapG α) (he : h.heap.length = 0) :
    extract_max key pid h = (none, h) := by
  unfold extract_max
  rw [if_pos (by omega)]

/-- Extracting from a non-empty heap returns the root and a heap whose array
is the original minus one copy of the root. -/
theorem extract_max_perm {α : Type} [Inhabited α] (key : α → ℚ)
    (pid : α → String) (h : HeapG α) (hpos : 0 < h.heap.length) :
    ∃ h2, extract_max key pid h = (some (h.heap.getD 0 default), h2) ∧
      List.Perm (h.heap.getD 0 default :: h2.heap) h.heap ∧
      h2.heap.length = h.heap.length - 1 := by
  unfold extract_max
  rw [if_neg (by omega)]
  refine ⟨_, rfl, ?_, ?_⟩
  all_goals
    set temp := h.heap.getD 0 default with htemp
    set lastv := h.heap.getD (h.heap.length - 1) default with hlast
    set l1 := (h.heap.set 0 lastv).set (h.heap.length - 1) temp with hl1
  all_goals
    have hlen1 : l1.length = h.heap.length := by simp [hl1]
    have hne1 : l1 ≠ [] := by
      have : 0 < l1.length := by omega
      exact List.length_pos.1 this
    have hgl : l1.getLast hne1 = temp := by
      have h1 : l1.getLast hne1 = l1.getD (l1.length - 1) default := by
        rw [List.getLast_eq_getElem]
        rw [List.getD_eq_getElem?_getD, List.getElem?_eq_getElem (by omega)]
        rfl
      rw [h1, hlen1, hl1]
      exact getD_set_self _ _ _ (by simp; omega)
    have hsplit : l1.dropLast ++ [temp] = l1 := by
      conv_rhs => rw [← List.dropLast_append_getLast hne1]
      rw [hgl]
    have hperm1 : List.Perm l1 h.heap := set_set_swap_perm h.heap 0 _ hpos (by omega)
  · have hdperm : List.Perm
        (heapify_down key pid (⟨l1.dropLast, h.mapping⟩ : HeapG α) 0).heap
        l1.dropLast := heapify_down_perm key pid _ 0
    have hc1 : List.Perm (temp :: (heapify_down key pid
        (⟨l1.dropLast, h.mapping⟩ : HeapG α) 0).heap) (temp :: l1.dropLast) :=
      List.Perm.cons temp hdperm
    have hc2 : List.Perm (temp :: l1.dropLast) l1 := by
      have hx := (List.perm_append_singleton temp l1.dropLast).symm
      rw [hsplit] at hx
      exact hx
    exact (hc1.trans hc2).trans hperm1
  · have hdperm : List.Perm
        (heapify_down key pid (⟨l1.dropLast, h.mapping⟩ : HeapG α) 0).heap
        l1.dropLast := heapify_down_perm key pid _ 0
    have := hdperm.length_eq
    have hdl : l1.dropLast.length = l1.length - 1 := List.length_dropLast l1
    omega

theorem extractK_perm {α : Type} [Inhabited α] (key : α → ℚ) (pid : α → String) :
    ∀ (n : Nat) (h : HeapG α), n ≤ h.heap.length →
      (extractK key pid h n).1.length = n ∧
      List.Perm ((extractK key pid h n).1 ++ (extractK key pid h n).2.heap) h.heap
  | 0, h, _ => by
    constructor <;> simp [extractK]
  | n + 1, h, hle => by
    have hpos : 0 < h.heap.length := by omega
    obtain ⟨h2, hex, hperm, hlen⟩ := extract_max_perm key pid h hpos
    have hrec := extractK_perm key pid n h2 (by omega)
    simp only [extractK, hex]
    constructor
    · simpa using hrec.1
    · have hcons : (h.heap.getD 0 default :: (extractK key pid h2 n).1) ++
          (extractK key pid h2 n).2.heap =
          h.heap.getD 0 default :: ((extractK key pid h2 n).1 ++
            (extractK key pid h2 n).2.heap) := by simp
      rw [hcons]
      exact (List.Perm.cons _ hrec.2).trans hperm

theorem insert_some {α : Type} [Inhabited α] (key : α → ℚ) (pid : α → String)
    (h : HeapG α) (x : α) :
    ∃ h2, insert key pid h x = some h2 ∧ List.Perm h2.heap (x :: h.heap) := by
  simp only [insert, heapify_up]
  obtain ⟨h2, hup⟩ := upGo_total key pid ((h.heap ++ [x]).length - 1 + 1)
    ⟨h.heap ++ [x], aset h.mapping (pid x) ((h.heap ++ [x]).length - 1)⟩
    ((h.heap ++ [x]).length - 1) (by simp) (by simp) (le_refl _)
  refine ⟨h2, hup, ?_⟩
  have hperm := upGo_perm key pid _ _ _ _ hup
  exact hperm.trans (List.perm_append_singleton x h.heap)

theorem insertAll_some {α : Type} [Inhabited α] (key : α → ℚ) (pid : α → String) :
    ∀ (xs : List α) (h : HeapG α),
      ∃ h2, insertAll key pid h xs = some h2 ∧ List.Perm h2.heap (xs ++ h.heap)
  | [], h => ⟨h, rfl, by simp⟩
  | x :: xs, h => by
    obtain ⟨h1, hins, hp1⟩ := insert_some key pid h x
    obtain ⟨h2, hall, hp2⟩ := insertAll_some key pid xs h1
    refine ⟨h2, ?_, ?_⟩
    · simp only [insertAll, hins]
      exact hall
    · have hp3 : List.Perm (xs ++ h1.heap) (xs ++ (x :: h.heap)) :=
        List.Perm.append_left xs hp1
      have hp4 : List.Perm (xs ++ (x :: h.heap)) (x :: (xs ++ h.heap)) :=
        List.perm_middle
      have := hp2.trans (hp3.trans hp4)
      simpa using this

/-! ### Parent-index arithmetic and the subtree relation -/

theorem parentIdx_left (p : Nat) : parentIdx (2 * p + 1) = p := by
  unfold parentIdx; omega

theorem parentIdx_right (p : Nat) : parentIdx (2 * p + 2) = p := by
  unfold parentIdx; omega

theorem parentIdx_lt {i : Nat} (h : 1 ≤ i) : parentIdx i < i := by
  unfold parentIdx; omega

theorem parentIdx_eq_iff {i p : Nat} (h : 1 ≤ i) :
    parentIdx i = p ↔ (i = 2 * p + 1 ∨ i = 2 * p + 2) := by
  unfold parentIdx; omega

theorem desc_le : ∀ {i j : Nat}, Desc i j → i ≤ j
  | _, _, Desc.refl _ => le_refl _
  | _, _, Desc.left h => by have := desc_le h; omega
  | _, _, Desc.right h => by have := desc_le h; omega

theorem desc_trans : ∀ {a b c : Nat}, Desc a b → Desc b c → Desc a c
  | _, _, _, Desc.refl _, h2 => h2
  | _, _, _, Desc.left h1, h2 => Desc.left (desc_trans h1 h2)
  | _, _, _, Desc.right h1, h2 => Desc.right (desc_trans h1 h2)

theorem desc_parentIdx (i : Nat) (h1 : 1 ≤ i) : Desc (parentIdx i) i := by
  rcases (parentIdx_eq_iff h1).1 rfl with h | h
  · have hd : Desc (parentIdx i) (2 * parentIdx i + 1) := Desc.left (Desc.refl _)
    rw [← h] at hd
    exact hd
  · have hd : Desc (parentIdx i) (2 * parentIdx i + 2) := Desc.right (Desc.refl _)
    rw [← h] at hd
    exact hd

theorem desc_zero (i : Nat) : Desc 0 i := by
  induction i using Nat.strong_induction_on with
  | _ i IH =>
    rcases Nat.eq_zero_or_pos i with h0 | h1
    · subst h0; exact Desc.refl 0
    · exact desc_trans (IH (parentIdx i) (parentIdx_lt h1)) (desc_parentIdx i h1)

/-! ### The max-heap invariant and sift-down -/

/-- In a valid max-heap the root's key dominates every element. -/
theorem keyAt_le_root {α : Type} [Inhabited α] (key : α → ℚ) {l : List α}
    (hinv : heapInvP key l) : ∀ i, i < l.length → keyAt key l i ≤ keyAt key l 0 := by
  intro i
  induction i using Nat.strong_induction_on with
  | _ i IH =>
    intro hil
    rcases Nat.eq_zero_or_pos i with h0 | h1
    · subst h0; exact le_refl _
    · exact le_trans (hinv i h1 hil)
        (IH (parentIdx i) (parentIdx_lt h1) (lt_trans (parentIdx_lt h1) hil))

/-- A node with no in-range children and intact edges everywhere else yields a
valid heap. -/
theorem no_children_inv {α : Type} [Inhabited α] (key : α → ℚ) {l : List α}
    {p : Nat} (hb : brokenAt key l p) (hnc : l.length ≤ 2 * p + 1) :
    heapInvP key l := by
  intro i h1 hil
  by_cases hpi : parentIdx i = p
  · have := (parentIdx_eq_iff h1).1 hpi
    omega
  · exact hb i h1 hil hpi

/-- When the sift-down guard fails, the heap is already valid. -/
theorem guard_false_inv {α : Type} [Inhabited α] (key : α → ℚ) {l : List α}
    {p c : Nat} (hsel : childSel key l p = some c) (hb : brokenAt key l p)
    (hg : ¬ keyAt key l p < keyAt key l c) : heapInvP key l := by
  intro i h1 hil
  by_cases hpi : parentIdx i = p
  · have hi2 := (parentIdx_eq_iff h1).1 hpi
    have hmax := childSel_max key hsel i (by omega) hil
    rw [hpi]
    exact le_trans hmax (le_of_not_lt hg)
  · exact hb i h1 hil hpi

/-- One sift-down swap step preserves the `brokenAt`/`auxDom` pair, moving the
broken position from the parent to the selected child. -/
theorem swap_step_inv {α : Type} [Inhabited α] (key : α → ℚ) (pid : α → String)
    {h : HeapG α} {p c : Nat} (hsel : childSel key h.heap p = some c)
    (hg : keyAt key h.heap p < keyAt key h.heap c)
    (hb : brokenAt key h.heap p) (ha : auxDom key h.heap p) :
    brokenAt key (heapSwap pid h p c).heap c ∧
      auxDom key (heapSwap pid h p c).heap c := by
  obtain ⟨hpc, hcl, hshape⟩ := childSel_some key hsel
  have hpl : p < h.heap.length := lt_trans hpc hcl
  have hpar : parentIdx c = p := (parentIdx_eq_iff (by omega)).2 (by omega)
  have hkey : ∀ t, keyAt key (heapSwap pid h p c).heap t =
      if t = c then keyAt key h.heap p
      else if t = p then keyAt key h.heap c
      else keyAt key h.heap t := fun t => keyAt_heapSwap key pid h t hpl hcl
  have hlen : (heapSwap pid h p c).heap.length = h.heap.length :=
    heapSwap_length pid h p c
  constructor
  · intro i h1 hil hpi
    rw [hlen] at hil
    rw [hkey i, hkey (parentIdx i)]
    by_cases hic : i = c
    · subst hic
      rw [if_pos rfl, hpar, if_neg (by omega), if_pos rfl]
      exact le_of_lt hg
    · by_cases hip : i = p
      · subst hip
        have hpp : parentIdx i < i := parentIdx_lt h1
        rw [if_neg hic, if_pos rfl, if_neg (by omega), if_neg (by omega)]
        exact ha h1 c hcl hpar
      · rw [if_neg hic, if_neg hip]
        by_cases hq : parentIdx i = p
        · have hi2 := (parentIdx_eq_iff h1).1 hq
          rw [if_neg hpi, if_pos hq]
          exact childSel_max key hsel i (by omega) hil
        · have hqlt : parentIdx i < i := parentIdx_lt h1
          rw [if_neg hpi, if_neg hq]
          exact hb i h1 hil hq
  · intro hc1 i hil hpi
    rw [hlen] at hil
    have h1i : 1 ≤ i := by
      rcases Nat.eq_zero_or_pos i with h0 | h1x
      · subst h0
        rw [show parentIdx 0 = 0 from rfl] at hpi
        omega
      · exact h1x
    have hi2 := (parentIdx_eq_iff h1i).1 hpi
    rw [hkey i, hkey (parentIdx c)]
    rw [hpar]
    rw [if_neg (by omega), if_neg (by omega), if_neg (by omega), if_pos rfl]
    have hstep := hb i (by omega) hil (by omega)
    rw [hpi] at hstep
    exact hstep

/-- Sift-down from a `brokenAt`/`auxDom` configuration restores the full
invariant (given sufficient fuel, which the wrapper always supplies). -/
theorem downGo_restore {α : Type} [Inhabited α] (key : α → ℚ) (pid : α → String) :
    ∀ (fuel : Nat) (h : HeapG α) (p c : Nat),
      h.heap.length - c ≤ fuel →
      childSel key h.heap p = some c →
      brokenAt key h.heap p →
      auxDom key h.heap p →
      heapInvP key (downGo key pid fuel h p c).heap
  | 0, h, p, c, hf, hsel, _, _ => by
    obtain ⟨hpc, hcl, _⟩ := childSel_some key hsel
    omega
  | fuel + 1, h, p, c, hf, hsel, hb, ha => by
    obtain ⟨hpc, hcl, hshape⟩ := childSel_some key hsel
    simp only [downGo]
    by_cases hg : keyAt key h.heap p < keyAt key h.heap c
    · rw [if_pos hg, if_neg (by omega : ¬ h.heap.length ≤ c)]
      obtain ⟨hb2, ha2⟩ := swap_step_inv key pid hsel hg hb ha
      cases hsel2 : childSel key (heapSwap pid h p c).heap c with
      | none =>
        show heapInvP key (heapSwap pid h p c).heap
        exact no_children_inv key hb2 (by
          have := childSel_none key hsel2
          omega)
      | some c2 =>
        obtain ⟨hcc2, hc2l, _⟩ := childSel_some key hsel2
        rw [heapSwap_length] at hc2l
        show heapInvP key (downGo key pid fuel (heapSwap pid h p c) c c2).heap
        apply downGo_restore key pid fuel (heapSwap pid h p c) c c2 ?_ hsel2 hb2 ha2
        rw [heapSwap_length]
        omega
    · rw [if_neg hg]
      exact guard_false_inv key hsel hb hg

/-- `heapify_down(0)` restores the invariant when only the root is out of
place. -/
theorem heapify_down_root_restore {α : Type} [Inhabited α] (key : α → ℚ)
    (pid : α → String) (h : HeapG α) (hb : brokenAt key h.heap 0) :
    heapInvP key (heapify_down key pid h 0).heap := by
  unfold heapify_down
  cases hsel : childSel key h.heap 0 with
  | none =>
    show heapInvP key h.heap
    have := childSel_none key hsel
    exact no_children_inv key hb (by omega)
  | some c =>
    obtain ⟨hpc, hcl, _⟩ := childSel_some key hsel
    show heapInvP key (downGo key pid h.heap.length h 0 c).heap
    exact downGo_restore key pid h.heap.length h 0 c (by omega) hsel hb
      (fun h1 => absurd h1 (by omega))

/-- The array left after `extract_max`'s swap-and-pop is broken at most at the
root. -/
theorem extract_prep_broken {α : Type} [Inhabited α] (key : α → ℚ) {l : List α}
    (hinv : heapInvP key l) (hpos : 0 < l.length) :
    brokenAt key
      (((l.set 0 (l.getD (l.length - 1) default)).set (l.length - 1)
        (l.getD 0 default)).dropLast) 0 := by
  intro i h1 hil hpi
  have hlen : (((l.set 0 (l.getD (l.length - 1) default)).set (l.length - 1)
      (l.getD 0 default)).dropLast).length = l.length - 1 := by
    simp
  rw [hlen] at hil
  have hget : ∀ j, 1 ≤ j → j < l.length - 1 →
      keyAt key (((l.set 0 (l.getD (l.length - 1) default)).set (l.length - 1)
        (l.getD 0 default)).dropLast) j = keyAt key l j := by
    intro j hj1 hjl
    unfold keyAt
    rw [getD_dropLast _ _ (by simp; omega)]
    rw [getD_set_ne _ _ _ (by omega), getD_set_ne _ _ _ (by omega)]
  have hp1 : 1 ≤ parentIdx i := by
    rcases Nat.eq_zero_or_pos (parentIdx i) with h0 | h13
    · exact absurd h0 hpi
    · exact h13
  have hplt : parentIdx i < i := parentIdx_lt h1
  rw [hget i h1 hil, hget (parentIdx i) hp1 (by omega)]
  exact hinv i h1 (by omega)

/-- `extract_max` on a valid non-empty heap: returns the root, whose key
dominates everything left, and the remaining heap is valid. -/
theorem extract_max_inv {α : Type} [Inhabited α] (key : α → ℚ) (pid : α → String)
    (h : HeapG α) (hpos : 0 < h.heap.length) (hinv : heapInvP key h.heap) :
    ∃ h2, extract_max key pid h = (some (h.heap.getD 0 default), h2) ∧
      List.Perm (h.heap.getD 0 default :: h2.heap) h.heap ∧
      h2.heap.length = h.heap.length - 1 ∧
      heapInvP key h2.heap ∧
      (∀ y ∈ h2.heap, key y ≤ key (h.heap.getD 0 default)) := by
  obtain ⟨h2, hex, hperm, hlen⟩ := extract_max_perm key pid h hpos
  have hdef : extract_max key pid h = (some (h.heap.getD 0 default),
      heapify_down key pid
        (⟨((h.heap.set 0 (h.heap.getD (h.heap.length - 1) default)).set
          (h.heap.length - 1) (h.heap.getD 0 default)).dropLast, h.mapping⟩ : HeapG α)
        0) := by
    unfold extract_max
    rw [if_neg (by omega)]
  have hh2 : h2 = heapify_down key pid
      (⟨((h.heap.set 0 (h.heap.getD (h.heap.length - 1) default)).set
        (h.heap.length - 1) (h.heap.getD 0 default)).dropLast, h.mapping⟩ : HeapG α)
      0 := by
    have hpair := hex.symm.trans hdef
    exact congrArg Prod.snd hpair
  have hinv2 : heapInvP key h2.heap := by
    rw [hh2]
    exact heapify_down_root_restore key pid _ (extract_prep_broken key hinv hpos)
  refine ⟨h2, hex, hperm, hlen, hinv2, ?_⟩
  intro y hy
  have hyl : y ∈ h.heap := hperm.mem_iff.1 (List.mem_cons_of_mem _ hy)
  obtain ⟨i, hi, hyi⟩ := List.mem_iff_getElem.1 hyl
  have hkey : key y = keyAt key h.heap i := by
    unfold keyAt
    rw [List.getD_eq_getElem?_getD, List.getElem?_eq_getElem hi, ← hyi]
    rfl
  have hroot : keyAt key h.heap 0 = key (h.heap.getD 0 default) := rfl
  rw [hkey, ← hroot]
  exact keyAt_le_root key hinv i hi

/-- Extracting `n` times from a valid heap yields keys in non-increasing order
and leaves a valid heap. -/
theorem extractK_sorted {α : Type} [Inhabited α] (key : α → ℚ) (pid : α → String) :
    ∀ (n : Nat) (h : HeapG α), n ≤ h.heap.length → heapInvP key h.heap →
      List.Sorted (fun a b : ℚ => a ≥ b) ((extractK key pid h n).1.map key) ∧
      heapInvP key (extractK key pid h n).2.heap
  | 0, h, _, hinv => by
    constructor
    · simp [extractK]
    · simpa [extractK] using hinv
  | n + 1, h, hle, hinv => by
    obtain ⟨h2, hex, hperm, hlen, hinv2, hmax⟩ :=
      extract_max_inv key pid h (by omega) hinv
    have hrec := extractK_sorted key pid n h2 (by omega) hinv2
    simp only [extractK, hex]
    constructor
    · rw [List.map_cons]
      refine List.sorted_cons.2 ⟨?_, hrec.1⟩
      intro b hb
      obtain ⟨y, hy, hyb⟩ := List.mem_map.1 hb
      have hperm2 := (extractK_perm key pid n h2 (by omega)).2
      have hyh2 : y ∈ h2.heap :=
        hperm2.mem_iff.1 (List.mem_append.2 (Or.inl hy))
      rw [← hyb]
      exact hmax y hyh2
    · exact hrec.2

/-! ### Soundness of `validate_heap` -/

/-- If the validator's descent from `p` succeeds, every strict descendant of
`p` in range satisfies the heap property at its edge. -/
theorem validateGo_sound (keys : List ℚ) :
    ∀ (fuel p : Nat), keys.length - p ≤ fuel → validateGo keys fuel p = true →
      ∀ i, Desc p i → i < keys.length → i ≠ p →
        keys.getD i 0 ≤ keys.getD (parentIdx i) 0
  | 0, p, hf, _, i, hdesc, hil, _ => by
    have hle := desc_le hdesc
    omega
  | fuel + 1, p, hf, hval, i, hdesc, hil, hne => by
    cases hdesc with
    | refl => exact absurd rfl hne
    | left hsub =>
      have h1i : 2 * p + 1 ≤ i := desc_le hsub
      have hc1 : 2 * p + 1 < keys.length := by omega
      simp only [validateGo] at hval
      rw [if_pos hc1] at hval
      by_cases hk1 : keys.getD p 0 < keys.getD (2 * p + 1) 0
      · rw [if_pos hk1] at hval
        exact absurd hval (by simp)
      · rw [if_neg hk1] at hval
        by_cases hieq : i = 2 * p + 1
        · subst hieq
          rw [parentIdx_left]
          exact le_of_not_lt hk1
        · by_cases hc2 : 2 * p + 2 < keys.length
          · rw [if_pos hc2] at hval
            by_cases hk2 : keys.getD p 0 < keys.getD (2 * p + 2) 0
            · rw [if_pos hk2] at hval
              exact absurd hval (by simp)
            · rw [if_neg hk2] at hval
              have hv1 : validateGo keys fuel (2 * p + 1) = true := by
                rw [Bool.and_eq_true] at hval
                exact hval.1
              exact validateGo_sound keys fuel (2 * p + 1) (by omega) hv1 i hsub
                hil hieq
          · rw [if_neg hc2] at hval
            exact validateGo_sound keys fuel (2 * p + 1) (by omega) hval i hsub
              hil hieq
    | right hsub =>
      have h1i : 2 * p + 2 ≤ i := desc_le hsub
      have hc1 : 2 * p + 1 < keys.length := by omega
      have hc2 : 2 * p + 2 < keys.length := by omega
      simp only [validateGo] at hval
      rw [if_pos hc1] at hval
      by_cases hk1 : keys.getD p 0 < keys.getD (2 * p + 1) 0
      · rw [if_pos hk1] at hval
        exact absurd hval (by simp)
      · rw [if_neg hk1, if_pos hc2] at hval
        by_cases hk2 : keys.getD p 0 < keys.getD (2 * p + 2) 0
        · rw [if_pos hk2] at hval
          exact absurd hval (by simp)
        · rw [if_neg hk2] at hval
          have hv2 : validateGo keys fuel (2 * p + 2) = true := by
            rw [Bool.and_eq_true] at hval
            exact hval.2
          by_cases hieq : i = 2 * p + 2
          · subst hieq
            rw [parentIdx_right]
            exact le_of_not_lt hk2
          · exact validateGo_sound keys fuel (2 * p + 2) (by omega) hv2 i hsub
              hil hieq

/-- A heap accepted by the source's `validate_heap` satisfies the max-heap
invariant. -/
theorem heapInvP_of_validate {α : Type} [Inhabited α] (key : α → ℚ)
    (h : HeapG α) (hv : validate_heap key h = true) : heapInvP key h.heap := by
  intro i h1 hil
  have hmap : ∀ j, j < h.heap.length → (h.heap.map key).getD j 0 = keyAt key h.heap j := by
    intro j hj
    rw [List.getD_eq_getElem?_getD, List.getElem?_map, List.getElem?_eq_getElem hj]
    unfold keyAt
    rw [List.getD_eq_getElem?_getD, List.getElem?_eq_getElem hj]
    rfl
  unfold validate_heap at hv
  have hlen : (h.heap.map key).length = h.heap.length := by simp
  have hsound := validateGo_sound (h.heap.map key) (h.heap.length + 1) 0
    (by omega) hv i (desc_zero i) (by omega) (by omega)
  have hpl : parentIdx i < h.heap.length := lt_trans (parentIdx_lt h1) hil
  rw [hmap i hil, hmap (parentIdx i) hpl] at hsound
  exact hsound

/-! ### Tracker-level lemmas -/

theorem idx_up_perm (key : String → ℚ) (h : HeapG String) (pl : String)
    (h2 : HeapG String) (hix : idx_up key h pl = some h2) :
    List.Perm h2.heap h.heap := by
  unfold idx_up at hix
  cases hg : get_index h pl with
  | none => simp [hg] at hix
  | some i =>
    simp only [hg] at hix
    unfold heapify_up at hix
    exact upGo_perm key (fun s => s) (i + 1) h i h2 hix

theorem idx_down_perm (key : String → ℚ) (h : HeapG String) (pl : String)
    (h2 : HeapG String) (hix : idx_down key h pl = some h2) :
    List.Perm h2.heap h.heap := by
  unfold idx_down at hix
  cases hg : get_index h pl with
  | none => simp [hg] at hix
  | some i =>
    simp only [hg, Option.some.injEq] at hix
    rw [← hix]
    exact heapify_down_perm key (fun s => s) h i

/-- Structural description of a successful `new_at_bat` step: either the
player was seen (fields bumped in place, heaps permuted) or unseen (record
created, the identity appended once to every heap). -/
theorem new_at_bat_spec (p : Problem) (pl : String) (hits rbi : ℤ)
    (p2 : Problem) (h : new_at_bat p pl hits rbi = some p2) :
    (∃ r, aget p.player_record_mapping pl = some r ∧
      p2.player_record_mapping = aset p.player_record_mapping pl
        ⟨r.player, r.ab + 1, r.hits + hits,
          Rat.divInt (r.hits + hits) (r.ab + 1), r.rbi + rbi⟩ ∧
      List.Perm p2.abHeap.heap p.abHeap.heap ∧
      List.Perm p2.hitsHeap.heap p.hitsHeap.heap ∧
      List.Perm p2.rbiHeap.heap p.rbiHeap.heap ∧
      List.Perm p2.avgHeap.heap p.avgHeap.heap) ∨
    (aget p.player_record_mapping pl = none ∧
      p2.player_record_mapping = aset p.player_record_mapping pl
        (mkPlayerRecord (some pl) 1 hits rbi) ∧
      List.Perm p2.abHeap.heap (pl :: p.abHeap.heap) ∧
      List.Perm p2.hitsHeap.heap (pl :: p.hitsHeap.heap) ∧
      List.Perm p2.rbiHeap.heap (pl :: p.rbiHeap.heap) ∧
      List.Perm p2.avgHeap.heap (pl :: p.avgHeap.heap)) := by
  unfold new_at_bat at h
  cases hag : aget p.player_record_mapping pl with
  | some r =>
    left
    simp only [hag] at h
    by_cases hz : r.ab + 1 = 0
    · rw [if_pos hz] at h
      exact absurd h (by simp)
    · rw [if_neg hz] at h
      cases h1 : idx_up (keyOf (aset p.player_record_mapping pl
          ⟨r.player, r.ab + 1, r.hits + hits,
            Rat.divInt (r.hits + hits) (r.ab + 1), r.rbi + rbi⟩) "ab")
          p.abHeap pl with
      | none => simp [h1] at h
      | some abH =>
        simp only [h1] at h
        cases h2 : idx_up (keyOf (aset p.player_record_mapping pl
            ⟨r.player, r.ab + 1, r.hits + hits,
              Rat.divInt (r.hits + hits) (r.ab + 1), r.rbi + rbi⟩) "hits")
            p.hitsHeap pl with
        | none => simp [h2] at h
        | some hitsH =>
          simp only [h2] at h
          cases h3 : idx_up (keyOf (aset p.player_record_mapping pl
              ⟨r.player, r.ab + 1, r.hits + hits,
                Rat.divInt (r.hits + hits) (r.ab + 1), r.rbi + rbi⟩) "rbi")
              p.rbiHeap pl with
          | none => simp [h3] at h
          | some rbiH =>
            simp only [h3] at h
            cases h4 : (if hits = 0 then
                idx_down (keyOf (aset p.player_record_mapping pl
                  ⟨r.player, r.ab + 1, r.hits + hits,
                    Rat.divInt (r.hits + hits) (r.ab + 1), r.rbi + rbi⟩) "avg")
                  p.avgHeap pl
              else
                idx_up (keyOf (aset p.player_record_mapping pl
                  ⟨r.player, r.ab + 1, r.hits + hits,
                    Rat.divInt (r.hits + hits) (r.ab + 1), r.rbi + rbi⟩) "avg")
                  p.avgHeap pl) with
            | none => simp [h4] at h
            | some avgH =>
              simp only [h4, Option.some.injEq] at h
              have havg : List.Perm avgH.heap p.avgHeap.heap := by
                by_cases hz0 : hits = 0
                · rw [if_pos hz0] at h4
                  exact idx_down_perm _ _ _ _ h4
                · rw [if_neg hz0] at h4
                  exact idx_up_perm _ _ _ _ h4
              subst h
              refine ⟨r, rfl, rfl, ?_, ?_, ?_, ?_⟩
              · exact idx_up_perm _ _ _ _ h1
              · exact idx_up_perm _ _ _ _ h2
              · exact idx_up_perm _ _ _ _ h3
              · exact havg
  | none =>
    right
    simp only [hag] at h
    cases h1 : insert (keyOf (aset p.player_record_mapping pl
        (mkPlayerRecord (some pl) 1 hits rbi)) "ab") (fun s => s) p.abHeap pl with
    | none => simp [h1] at h
    | some abH =>
      simp only [h1] at h
      cases h2 : insert (keyOf (aset p.player_record_mapping pl
          (mkPlayerRecord (some pl) 1 hits rbi)) "hits") (fun s => s)
          p.hitsHeap pl with
      | none => simp [h2] at h
      | some hitsH =>
        simp only [h2] at h
        cases h3 : insert (keyOf (aset p.player_record_mapping pl
            (mkPlayerRecord (some pl) 1 hits rbi)) "rbi") (fun s => s)
            p.rbiHeap pl with
        | none => simp [h3] at h
        | some rbiH =>
          simp only [h3] at h
          cases h4 : insert (keyOf (aset p.player_record_mapping pl
              (mkPlayerRecord (some pl) 1 hits rbi)) "avg") (fun s => s)
              p.avgHeap pl with
          | none => simp [h4] at h
          | some avgH =>
            simp only [h4, Option.some.injEq] at h
            have hperm : ∀ (key : String → ℚ) (hp : HeapG String)
                (hres : HeapG String),
                insert key (fun s => s) hp pl = some hres →
                List.Perm hres.heap (pl :: hp.heap) := by
              intro key hp hres hins
              obtain ⟨h2x, hins2, hperm2⟩ := insert_some key (fun s => s) hp pl
              rw [hins] at hins2
              cases hins2
              exact hperm2
            subst h
            refine ⟨rfl, rfl, ?_, ?_, ?_, ?_⟩
            · exact hperm _ _ _ h1
            · exact hperm _ _ _ h2
            · exact hperm _ _ _ h3
            · exact hperm _ _ _ h4

theorem withHeap_store (p : Problem) (stat : String) (h : HeapG String) :
    (withHeap p stat h).player_record_mapping = p.player_record_mapping := by
  unfold withHeap
  split_ifs <;> rfl

theorem heapOf_withHeap (p : Problem) (stat : String) (h : HeapG String)
    (hs : stat = "ab" ∨ stat = "hits" ∨ stat = "rbi" ∨ stat = "avg") :
    heapOf (withHeap p stat h) stat = h := by
  rcases hs with h4 | h4 | h4 | h4 <;> subst h4 <;> simp [heapOf, withHeap]

/-- Behaviour of `current_best` on a valid attribute: it succeeds, returns
`min(k, heap size)` records, leaves the chosen heap a permutation of itself,
returns the whole heap (as a multiset) when `k` covers it, and returns keys
in non-increasing order whenever the chosen heap validates. -/
theorem current_best_spec (p : Problem) (stat : String) (k : ℤ)
    (hs : stat = "ab" ∨ stat = "hits" ∨ stat = "rbi" ∨ stat = "avg") :
    ∃ out h2,
      current_best p stat k = some (some out, withHeap p stat h2) ∧
      out.length = (min k ((heapOf p stat).heap.length : ℤ)).toNat ∧
      List.Perm h2.heap (heapOf p stat).heap ∧
      (((heapOf p stat).heap.length : ℤ) ≤ k → List.Perm out (heapOf p stat).heap) ∧
      (validate_heap (keyOf p.player_record_mapping stat) (heapOf p stat) = true →
        List.Sorted (fun a b : ℚ => a ≥ b)
          (out.map (keyOf p.player_record_mapping stat))) := by
  have hsize : ((min k ((heapOf p stat).heap.length : ℤ)).toNat) ≤
      (heapOf p stat).heap.length := by omega
  obtain ⟨hlenK, hpermK⟩ := extractK_perm (keyOf p.player_record_mapping stat)
    (fun s => s) ((min k ((heapOf p stat).heap.length : ℤ)).toNat)
    (heapOf p stat) hsize
  obtain ⟨h2, hall, hallperm⟩ := insertAll_some (keyOf p.player_record_mapping stat)
    (fun s => s)
    (extractK (keyOf p.player_record_mapping stat) (fun s => s) (heapOf p stat)
      ((min k ((heapOf p stat).heap.length : ℤ)).toNat)).1
    (extractK (keyOf p.player_record_mapping stat) (fun s => s) (heapOf p stat)
      ((min k ((heapOf p stat).heap.length : ℤ)).toNat)).2
  refine ⟨_, h2, ?_, hlenK, hallperm.trans hpermK, ?_, ?_⟩
  · unfold current_best
    rw [if_pos hs]
    dsimp only
    rw [hall]
  · intro hk
    have hsz : (min k ((heapOf p stat).heap.length : ℤ)).toNat =
        (heapOf p stat).heap.length := by omega
    have hlenperm := hpermK.length_eq
    have h0 : ((extractK (keyOf p.player_record_mapping stat) (fun s => s)
        (heapOf p stat) ((min k ((heapOf p stat).heap.length : ℤ)).toNat)).2.heap).length = 0 := by
      rw [List.length_append] at hlenperm
      omega
    have hfin := List.length_eq_zero.1 h0
    have hres := hpermK
    rw [hfin, List.append_nil] at hres
    exact hres
  · intro hv
    have hinv := heapInvP_of_validate (keyOf p.player_record_mapping stat) _ hv
    exact (extractK_sorted (keyOf p.player_record_mapping stat) (fun s => s) _
      (heapOf p stat) hsize hinv).1

/-- Any successful `current_best` call leaves the record map untouched and
every heap's array a permutation of what it was. -/
theorem current_best_heaps (p : Problem) (stat : String) (k : ℤ)
    (res : Option (List String)) (p2 : Problem)
    (h : current_best p stat k = some (res, p2)) :
    p2.player_record_mapping = p.player_record_mapping ∧
    List.Perm p2.abHeap.heap p.abHeap.heap ∧
    List.Perm p2.hitsHeap.heap p.hitsHeap.heap ∧
    List.Perm p2.rbiHeap.heap p.rbiHeap.heap ∧
    List.Perm p2.avgHeap.heap p.avgHeap.heap := by
  by_cases hs : stat = "ab" ∨ stat = "hits" ∨ stat = "rbi" ∨ stat = "avg"
  · obtain ⟨out, h2, heq, _, hperm, _, _⟩ := current_best_spec p stat k hs
    rw [heq] at h
    injection h with h
    have hp2 : p2 = withHeap p stat h2 := (congrArg Prod.snd h).symm
    subst hp2
    rcases hs with h4 | h4 | h4 | h4 <;> subst h4 <;>
      simp only [heapOf, withHeap] at hperm ⊢ <;>
      refine ⟨rfl, ?_, ?_, ?_, ?_⟩ <;>
      simp_all <;> exact List.Perm.refl _
  · unfold current_best at h
    rw [if_neg hs] at h
    injection h with h
    have hp2 : p2 = p := (congrArg Prod.snd h).symm
    subst hp2
    exact ⟨rfl, List.Perm.refl _, List.Perm.refl _, List.Perm.refl _,
      List.Perm.refl _⟩

/-- C9: in every reachable tracker state, an identity present in the record
map occurs exactly once in each of the four heaps' arrays, and an absent
identity occurs in none of them.  (The second half of the claim — that every
heap sees the very record stored in the map — holds by construction in this
embedding: heaps store the identity and every field access dereferences the
tracker's single store, exactly like Python's object aliasing.) -/
theorem reachable_identity_counts (p : Problem) (hre : Reachable p) (q : String) :
    (∀ r, aget p.player_record_mapping q = some r →
      (p.abHeap.heap.count q = 1 ∧ p.hitsHeap.heap.count q = 1 ∧
       p.rbiHeap.heap.count q = 1 ∧ p.avgHeap.heap.count q = 1)) ∧
    (aget p.player_record_mapping q = none →
      (p.abHeap.heap.count q = 0 ∧ p.hitsHeap.heap.count q = 0 ∧
       p.rbiHeap.heap.count q = 0 ∧ p.avgHeap.heap.count q = 0)) := by
  induction hre with
  | start =>
    constructor
    · intro r hr
      simp [Problem.start, aget] at hr
    · intro _
      simp [Problem.start]
  | @newAtBat p1 p2 pl hh rr hre2 hstep IH =>
    rcases new_at_bat_spec _ _ _ _ _ hstep with
      ⟨r0, hag, hstore, hab, hhits, hrbi, havg⟩ |
      ⟨hag, hstore, hab, hhits, hrbi, havg⟩
    · constructor
      · intro r hr
        rw [hstore] at hr
        by_cases hq : q = pl
        case pos =>
          subst hq
          obtain ⟨c1, c2, c3, c4⟩ := IH.1 r0 hag
          exact ⟨by rw [hab.count_eq]; exact c1, by rw [hhits.count_eq]; exact c2,
            by rw [hrbi.count_eq]; exact c3, by rw [havg.count_eq]; exact c4⟩
        case neg =>
          rw [aget_aset_ne _ _ _ _ (fun hx => hq hx.symm)] at hr
          obtain ⟨c1, c2, c3, c4⟩ := IH.1 r hr
          exact ⟨by rw [hab.count_eq]; exact c1, by rw [hhits.count_eq]; exact c2,
            by rw [hrbi.count_eq]; exact c3, by rw [havg.count_eq]; exact c4⟩
      · intro hr
        rw [hstore] at hr
        by_cases hq : q = pl
        case pos =>
          subst hq
          rw [aget_aset_self] at hr
          exact absurd hr (by simp)
        case neg =>
          rw [aget_aset_ne _ _ _ _ (fun hx => hq hx.symm)] at hr
          obtain ⟨c1, c2, c3, c4⟩ := IH.2 hr
          exact ⟨by rw [hab.count_eq]; exact c1, by rw [hhits.count_eq]; exact c2,
            by rw [hrbi.count_eq]; exact c3, by rw [havg.count_eq]; exact c4⟩
    · constructor
      · intro r hr
        rw [hstore] at hr
        by_cases hq : q = pl
        case pos =>
          subst hq
          obtain ⟨c1, c2, c3, c4⟩ := IH.2 hag
          refine ⟨?_, ?_, ?_, ?_⟩
          · rw [hab.count_eq, List.count_cons_self, c1]
          · rw [hhits.count_eq, List.count_cons_self, c2]
          · rw [hrbi.count_eq, List.count_cons_self, c3]
          · rw [havg.count_eq, List.count_cons_self, c4]
        case neg =>
          rw [aget_aset_ne _ _ _ _ (fun hx => hq hx.symm)] at hr
          obtain ⟨c1, c2, c3, c4⟩ := IH.1 r hr
          refine ⟨?_, ?_, ?_, ?_⟩
          · rw [hab.count_eq, List.count_cons_of_ne hq, c1]
          · rw [hhits.count_eq, List.count_cons_of_ne hq, c2]
          · rw [hrbi.count_eq, List.count_cons_of_ne hq, c3]
          · rw [havg.count_eq, List.count_cons_of_ne hq, c4]
      · intro hr
        rw [hstore] at hr
        by_cases hq : q = pl
        case pos =>
          subst hq
          rw [aget_aset_self] at hr
          exact absurd hr (by simp)
        case neg =>
          rw [aget_aset_ne _ _ _ _ (fun hx => hq hx.symm)] at hr
          obtain ⟨c1, c2, c3, c4⟩ := IH.2 hr
          refine ⟨?_, ?_, ?_, ?_⟩
          · rw [hab.count_eq, List.count_cons_of_ne hq, c1]
          · rw [hhits.count_eq, List.count_cons_of_ne hq, c2]
          · rw [hrbi.count_eq, List.count_cons_of_ne hq, c3]
          · rw [havg.count_eq, List.count_cons_of_ne hq, c4]
  | @currentBest p1 p2 stat k res hre2 hstep IH =>
    obtain ⟨hstore, hab, hhits, hrbi, havg⟩ := current_best_heaps _ _ _ _ _ hstep
    constructor
    · intro r hr
      rw [hstore] at hr
      obtain ⟨c1, c2, c3, c4⟩ := IH.1 r hr
      exact ⟨by rw [hab.count_eq]; exact c1, by rw [hhits.count_eq]; exact c2,
        by rw [hrbi.count_eq]; exact c3, by rw [havg.count_eq]; exact c4⟩
    · intro hr
      rw [hstore] at hr
      obtain ⟨c1, c2, c3, c4⟩ := IH.2 hr
      exact ⟨by rw [hab.count_eq]; exact c1, by rw [hhits.count_eq]; exact c2,
        by rw [hrbi.count_eq]; exact c3, by rw [havg.count_eq]; exact c4⟩

/-! ### Claim theorems -/

/-- C1 (code-bug evidence): `extract_max` on the two-element heap `[A, B]`
(keys 5 and 3, mapping consistent) removes `A` but leaves `self.mapping`
entirely untouched: the entry for the removed identity `A` is not cleared,
and `B` — the element swapped from the last slot to index 0 — is still
mapped to index 1, which no longer even exists.  The spec requires the
removed identity's entry to be cleared and the swapped element's entry to
stay consistent. -/
theorem extract_max_stale_mapping :
    extract_max keyAB (fun s => s) hAB =
      (some "A", ⟨["B"], [("A", 0), ("B", 1)]⟩) ∧
    aget (extract_max keyAB (fun s => s) hAB).2.mapping "A" = some 0 ∧
    aget (extract_max keyAB (fun s => s) hAB).2.mapping "B" = some 1 ∧
    (extract_max keyAB (fun s => s) hAB).2.heap = ["B"] := by
  refine ⟨by decide, by decide, by decide, by decide⟩

/-- C2 (code-bug evidence): after the contract-respecting driver sequence
`exSeq` (a five-hit first at-bat for `A`, a two-hit first at-bat for `B`,
then four one-hit at-bats for `A`), the tracker's own validator rejects the
average heap: `A`'s average has dropped to `9/5` below `B`'s `2.0`, but
`new_at_bat` sifted the average heap up (because `hits != 0`) instead of
down, leaving `A` at the root. -/
theorem new_at_bat_breaks_avg_validate :
    exSeq = some pEx ∧
    validate_heap (keyOf pEx.player_record_mapping "avg") pEx.avgHeap = false := by
  refine ⟨by decide, by decide⟩

/-- C3 (counterexample): with an unknown attribute the source does NOT fail
with a typed `InvalidAttribute` error: it prints `'not valid'` and falls off
with a bare `return`, producing Python's default `None` — the model's
`some (none, ·)` result, a silently returned default with the state
untouched, which is exactly what the claim rules out. -/
theorem current_best_invalid_cex :
    current_best Problem.start "unknown_stat" 3 = some (none, Problem.start) := by
  decide

/-- C3 (amended): for every tracker state and every attribute name outside
`{ab, hits, rbi, avg}`, `current_best` returns `None` silently (no typed
error) and leaves the record map and all four heaps unmodified. -/
theorem current_best_invalid_silent (p : Problem) (stat : String) (k : ℤ)
    (hs : ¬ (stat = "ab" ∨ stat = "hits" ∨ stat = "rbi" ∨ stat = "avg")) :
    current_best p stat k = some (none, p) := by
  unfold current_best
  rw [if_neg hs]

theorem current_best_invalid_silent_witness :
    current_best pOne "nostat" 2 = some (none, pOne) :=
  current_best_invalid_silent pOne "nostat" 2 (by decide)

/-- C4: `current_stats` never fails (it is a total function of the model) and
returns the documented sentinel `PlayerRecord(None, 1, 0, 0)` — absent
identity, the documented sentinel `ab = 1`, zero hits and rbi, and
`avg = 0.0` — for every identity not present in the record map. -/
theorem current_stats_unseen (p : Problem) (pl : String)
    (h : aget p.player_record_mapping pl = none) :
    current_stats p pl = mkPlayerRecord none 1 0 0 ∧
    (current_stats p pl).player = none ∧ (current_stats p pl).ab = 1 ∧
    (current_stats p pl).hits = 0 ∧ (current_stats p pl).rbi = 0 ∧
    (current_stats p pl).avg = 0 := by
  have hcs : current_stats p pl = mkPlayerRecord none 1 0 0 := by
    simp only [current_stats, h]
  rw [hcs]
  exact ⟨rfl, by decide, by decide, by decide, by decide, by decide⟩

theorem current_stats_unseen_witness :
    current_stats Problem.start "nobody" = mkPlayerRecord none 1 0 0 ∧
    (current_stats Problem.start "nobody").player = none ∧
    (current_stats Problem.start "nobody").ab = 1 ∧
    (current_stats Problem.start "nobody").hits = 0 ∧
    (current_stats Problem.start "nobody").rbi = 0 ∧
    (current_stats Problem.start "nobody").avg = 0 :=
  current_stats_unseen Problem.start "nobody" (by decide)

/-- C5: `current_best` on a valid attribute is read-only up to multiset: it
succeeds, the chosen heap's array stays a permutation of itself, the record
map is untouched, and re-querying for the full heap size returns exactly the
original multiset of identities — no record is lost or duplicated by the
extract-then-reinsert sequence. -/
theorem current_best_roundtrip (p : Problem) (stat : String) (k : ℤ)
    (hs : stat = "ab" ∨ stat = "hits" ∨ stat = "rbi" ∨ stat = "avg") :
    ∃ out p2, current_best p stat k = some (some out, p2) ∧
      List.Perm (heapOf p2 stat).heap (heapOf p stat).heap ∧
      p2.player_record_mapping = p.player_record_mapping ∧
      ∃ out2 p3, current_best p2 stat ((heapOf p2 stat).heap.length : ℤ) =
          some (some out2, p3) ∧
        List.Perm out2 (heapOf p stat).heap := by
  obtain ⟨out, h2, heq, hlen, hperm, hfull, hsort⟩ := current_best_spec p stat k hs
  refine ⟨out, withHeap p stat h2, heq, ?_, withHeap_store p stat h2, ?_⟩
  · rw [heapOf_withHeap _ _ _ hs]
    exact hperm
  · obtain ⟨out2, h3, heq2, hlen2, hperm2, hfull2, hsort2⟩ :=
      current_best_spec (withHeap p stat h2) stat
        ((heapOf (withHeap p stat h2) stat).heap.length : ℤ) hs
    refine ⟨out2, withHeap (withHeap p stat h2) stat h3, heq2, ?_⟩
    have hf := hfull2 (le_refl _)
    rw [heapOf_withHeap _ _ _ hs] at hf
    exact hf.trans hperm

theorem current_best_roundtrip_witness :
    ∃ out p2, current_best pOne "hits" 1 = some (some out, p2) ∧
      List.Perm (heapOf p2 "hits").heap (heapOf pOne "hits").heap ∧
      p2.player_record_mapping = pOne.player_record_mapping ∧
      ∃ out2 p3, current_best p2 "hits" ((heapOf p2 "hits").heap.length : ℤ) =
          some (some out2, p3) ∧
        List.Perm out2 (heapOf pOne "hits").heap :=
  current_best_roundtrip pOne "hits" 1 (Or.inr (Or.inl rfl))

/-- C6: on any heap accepted by the source's own `validate_heap`, extracting
`n = len(heap)` times yields the elements in non-increasing key order, and
the extracted sequence is a permutation of the heap's original contents (so
for equal keys only multiset equality is asserted). -/
theorem extract_max_order {α : Type} [Inhabited α] (key : α → ℚ)
    (pid : α → String) (h : HeapG α) (hv : validate_heap key h = true) :
    List.Sorted (fun a b : ℚ => a ≥ b)
      ((extractK key pid h h.heap.length).1.map key) ∧
    List.Perm (extractK key pid h h.heap.length).1 h.heap := by
  have hinv := heapInvP_of_validate key h hv
  have hsort := (extractK_sorted key pid h.heap.length h (le_refl _) hinv).1
  obtain ⟨hlen, hperm⟩ := extractK_perm key pid h.heap.length h (le_refl _)
  refine ⟨hsort, ?_⟩
  have h0 : ((extractK key pid h h.heap.length).2.heap).length = 0 := by
    have := hperm.length_eq
    rw [List.length_append] at this
    omega
  have hfin := List.length_eq_zero.1 h0
  rw [hfin, List.append_nil] at hperm
  exact hperm

theorem extract_max_order_witness :
    List.Sorted (fun a b : ℚ => a ≥ b)
      ((extractK keyCBA (fun s => s) hCBA hCBA.heap.length).1.map keyCBA) ∧
    List.Perm (extractK keyCBA (fun s => s) hCBA hCBA.heap.length).1 hCBA.heap :=
  extract_max_order keyCBA (fun s => s) hCBA (by decide)

/-- C7 (counterexample): in the reachable tracker state `pEx` (see `exSeq`),
`current_best("avg", 2)` does return exactly `min(k, n) = 2` records, but
they are `[A, B]` with averages `[9/5, 2]` — not descending.  The avg heap
of `pEx` violates the heap invariant (see the C2 evidence), so the
as-stated claim that every reachable state yields descending output is
false. -/
theorem current_best_not_descending_cex :
    (current_best pEx "avg" 2).map Prod.fst = some (some ["A", "B"]) ∧
    ¬ List.Sorted (fun a b : ℚ => a ≥ b)
      (["A", "B"].map (keyOf pEx.player_record_mapping "avg")) := by
  refine ⟨by decide, by decide⟩

/-- C7 (amended): for every tracker state, valid attribute and `k`,
`current_best` returns exactly `min(k, heap size)` records (and by C9 the
heap size equals the number of tracked identities in reachable states); the
records are ordered descending by the attribute whenever the chosen heap
satisfies the max-heap invariant as checked by `validate_heap` — a condition
reachable states can violate for the average heap. -/
theorem current_best_truncation (p : Problem) (stat : String) (k : ℤ)
    (hs : stat = "ab" ∨ stat = "hits" ∨ stat = "rbi" ∨ stat = "avg") :
    ∃ out p2, current_best p stat k = some (some out, p2) ∧
      out.length = min k.toNat (heapOf p stat).heap.length ∧
      (validate_heap (keyOf p.player_record_mapping stat) (heapOf p stat) = true →
        List.Sorted (fun a b : ℚ => a ≥ b)
          (out.map (keyOf p.player_record_mapping stat))) := by
  obtain ⟨out, h2, heq, hlen, _, _, hsort⟩ := current_best_spec p stat k hs
  refine ⟨out, _, heq, ?_, hsort⟩
  rw [hlen]
  omega

theorem current_best_truncation_witness :
    ∃ out p2, current_best pTwo "hits" 5 = some (some out, p2) ∧
      out.length = min (5 : ℤ).toNat (heapOf pTwo "hits").heap.length ∧
      (validate_heap (keyOf pTwo.player_record_mapping "hits")
          (heapOf pTwo "hits") = true →
        List.Sorted (fun a b : ℚ => a ≥ b)
          (out.map (keyOf pTwo.player_record_mapping "hits"))) :=
  current_best_truncation pTwo "hits" 5 (Or.inr (Or.inl rfl))

/-- C8: every successful `new_at_bat` observation increments `ab` by exactly
one, adds the given hits and rbi deltas, and recomputes
`avg = hits/ab` (for an unseen identity the previous totals are zero and the
constructor computes the same values; `ab` is then `1 ≠ 0`, so the `ab == 0`
default of the constructor is not taken). -/
theorem new_at_bat_update (p : Problem) (pl : String) (hits rbi : ℤ)
    (p2 : Problem) (h : new_at_bat p pl hits rbi = some p2) :
    ∃ r2, aget p2.player_record_mapping pl = some r2 ∧
      r2.ab = (prevStats p pl).1 + 1 ∧
      r2.hits = (prevStats p pl).2.1 + hits ∧
      r2.rbi = (prevStats p pl).2.2 + rbi ∧
      r2.avg = (((prevStats p pl).2.1 + hits : ℤ) : ℚ) /
        (((prevStats p pl).1 + 1 : ℤ) : ℚ) := by
  rcases new_at_bat_spec _ _ _ _ _ h with
    ⟨r0, hag, hstore, _, _, _, _⟩ | ⟨hag, hstore, _, _, _, _⟩
  · refine ⟨⟨r0.player, r0.ab + 1, r0.hits + hits,
      Rat.divInt (r0.hits + hits) (r0.ab + 1), r0.rbi + rbi⟩, ?_, ?_, ?_, ?_, ?_⟩
    · rw [hstore]
      exact aget_aset_self _ _ _
    · simp [prevStats, hag]
    · simp [prevStats, hag]
    · simp [prevStats, hag]
    · simp only [prevStats, hag]
      rw [Rat.divInt_eq_div]
  · refine ⟨mkPlayerRecord (some pl) 1 hits rbi, ?_, ?_, ?_, ?_, ?_⟩
    · rw [hstore]
      exact aget_aset_self _ _ _
    · simp [prevStats, hag, mkPlayerRecord]
    · simp [prevStats, hag, mkPlayerRecord]
    · simp [prevStats, hag, mkPlayerRecord]
    · simp only [prevStats, hag, mkPlayerRecord]
      rw [if_neg (by omega : ¬ (1 : ℤ) = 0), Rat.divInt_eq_div]
      norm_num

theorem new_at_bat_update_witness :
    (∃ r2, aget pFour.player_record_mapping "A" = some r2 ∧
      r2.ab = (prevStats pThree "A").1 + 1 ∧
      r2.hits = (prevStats pThree "A").2.1 + 0 ∧
      r2.rbi = (prevStats pThree "A").2.2 + 0 ∧
      r2.avg = (((prevStats pThree "A").2.1 + 0 : ℤ) : ℚ) /
        (((prevStats pThree "A").1 + 1 : ℤ) : ℚ)) ∧
    aget pFour.player_record_mapping "A" =
      some ⟨some "A", 4, 3, Rat.divInt 3 4, 3⟩ ∧
    Rat.divInt 3 4 = (0.75 : ℚ) := by
  refine ⟨new_at_bat_update pThree "A" 0 0 pFour (by decide), by decide, ?_⟩
  rw [Rat.divInt_eq_div]
  norm_num

theorem reachable_identity_counts_witness :
    pOne.abHeap.heap.count "A" = 1 ∧ pOne.hitsHeap.heap.count "A" = 1 ∧
    pOne.rbiHeap.heap.count "A" = 1 ∧ pOne.avgHeap.heap.count "A" = 1 := by
  have hre : Reachable pOne :=
    Reachable.newAtBat Reachable.start
      (show new_at_bat Problem.start "A" 0 0 = some pOne by decide)
  exact (reachable_identity_counts pOne hre "A").1
    ⟨some "A", 1, 0, 0, 0⟩ (by decide)

/-- C10: for a non-empty heap and any in-range index, `heapify_up` returns
normally; in particular `heapify_up(0)` returns the heap unchanged even
though the Python 2 floor division makes the parent index `-1` and the loop
guard reads `heap[-1]` (the last element) before the `parent == -1` check
returns. -/
theorem heapify_up_total_root {α : Type} [Inhabited α] (key : α → ℚ)
    (pid : α → String) (h : HeapG α) (child : Nat) (hne : h.heap ≠ [])
    (hc : child < h.heap.length) :
    (∃ h2, heapify_up key pid h child = some h2) ∧
    heapify_up key pid h 0 = some h := by
  have hpos : 0 < h.heap.length := List.length_pos.2 hne
  constructor
  · exact upGo_total key pid (child + 1) h child hpos hc (le_refl _)
  · exact heapify_up_zero key pid h hpos

theorem heapify_up_total_root_witness :
    (∃ h2, heapify_up keyAB (fun s => s) hAB 1 = some h2) ∧
    heapify_up keyAB (fun s => s) hAB 0 = some hAB :=
  heapify_up_total_root keyAB (fun s => s) hAB 1 (by decide) (by decide)

end Baseball
